import Mathlib

/-!
# Verification of the Advanced Rock-Paper-Scissors game core

Shallow embedding of `src/game.py`.  Python `IntEnum` members are modelled
as a pair of a variant tag and an underlying ordinal value; Python equality
on `IntEnum` members (and hence list membership and `dict` lookup) compares
only the ordinal value, which the model captures with `pyEq`.  Python dicts
that map actions to defeat lists are modelled as association lists whose
lookup uses `pyEq`.  Calls to `random.choice` are modelled by an explicit
oracle `pick : List PyAction → PyAction` passed to the functions that use
randomness.
-/

/-- A member of one of the `IntEnum` action classes of `game.py`: a variant
tag (the enum class) together with the underlying integer value.  Python
compares `IntEnum` members by their integer value only. -/
structure PyAction where
  variant : String
  value : Nat
deriving DecidableEq, Repr

/-- Python `==` on `IntEnum` members: comparison of underlying values only
(the variant tag is invisible to `==`, `in` and `dict` lookup). -/
def pyEq (a b : PyAction) : Bool := a.value == b.value

namespace Action

/-- `Action.Rock` (value 0). -/
def Rock : PyAction := ⟨"Action", 0⟩

/-- `Action.Paper` (value 1). -/
def Paper : PyAction := ⟨"Action", 1⟩

/-- `Action.Scissors` (value 2). -/
def Scissors : PyAction := ⟨"Action", 2⟩

/-- `Action.Lizard` (value 3). -/
def Lizard : PyAction := ⟨"Action", 3⟩

/-- `Action.Spock` (value 4). -/
def Spock : PyAction := ⟨"Action", 4⟩

/-- The five members of the `Action` enum, in declaration order. -/
def members : List PyAction := [Rock, Paper, Scissors, Lizard, Spock]

end Action

namespace FireWaterAction

/-- `FireWaterAction.Rock` (value 0). -/
def Rock : PyAction := ⟨"FireWaterAction", 0⟩

/-- `FireWaterAction.Paper` (value 1). -/
def Paper : PyAction := ⟨"FireWaterAction", 1⟩

/-- `FireWaterAction.Scissors` (value 2). -/
def Scissors : PyAction := ⟨"FireWaterAction", 2⟩

/-- `FireWaterAction.Fire` (value 3). -/
def Fire : PyAction := ⟨"FireWaterAction", 3⟩

/-- `FireWaterAction.Water` (value 4). -/
def Water : PyAction := ⟨"FireWaterAction", 4⟩

/-- The five members of the `FireWaterAction` enum, in declaration order. -/
def members : List PyAction := [Rock, Paper, Scissors, Fire, Water]

end FireWaterAction

/-- A Python dict mapping an action to the list of actions it defeats,
modelled as an association list in insertion order. -/
abbrev Victories := List (PyAction × List PyAction)

/-- `d.get(a, [])`: dict lookup with default `[]`.  Python dict lookup on
`IntEnum` keys compares by value (`pyEq`). -/
def dictGet (d : Victories) (a : PyAction) : List PyAction :=
  match d.find? (fun kv => pyEq kv.1 a) with
  | some kv => kv.2
  | none => []

/-- `d.keys()` in insertion order. -/
def dictKeys (d : Victories) : List PyAction := d.map Prod.fst

/-- `victories_classic` from `game.py`. -/
def victories_classic : Victories :=
  [(Action.Rock, [Action.Scissors]),
   (Action.Paper, [Action.Rock]),
   (Action.Scissors, [Action.Paper])]

/-- `victories_extended` from `game.py` (keys in source insertion order). -/
def victories_extended : Victories :=
  [(Action.Scissors, [Action.Paper, Action.Lizard]),
   (Action.Paper, [Action.Spock, Action.Rock]),
   (Action.Rock, [Action.Scissors, Action.Lizard]),
   (Action.Lizard, [Action.Spock, Action.Paper]),
   (Action.Spock, [Action.Scissors, Action.Rock])]

/-- `victories_fire_water` from `game.py`. -/
def victories_fire_water : Victories :=
  [(FireWaterAction.Rock, [FireWaterAction.Scissors, FireWaterAction.Fire]),
   (FireWaterAction.Paper, [FireWaterAction.Rock, FireWaterAction.Water]),
   (FireWaterAction.Scissors, [FireWaterAction.Paper, FireWaterAction.Water]),
   (FireWaterAction.Fire, [FireWaterAction.Scissors, FireWaterAction.Paper]),
   (FireWaterAction.Water, [FireWaterAction.Fire, FireWaterAction.Rock])]

/-- The `RuleSet` class: `__init__` only stores the victories mapping
(there is no validation of any kind in the constructor). -/
structure RuleSetS where
  victories : Victories
deriving Repr

/-- `RuleSet(victories)`: construction always succeeds and just stores the
mapping. -/
def mkRuleSet (victories : Victories) : RuleSetS := ⟨victories⟩

/-- `RuleSet.get_valid_actions`:
`sorted(self.victories.keys(), key=lambda a: a.value)` — the dict keys,
sorted (stably) by underlying ordinal value. -/
def get_valid_actions (victories : Victories) : List PyAction :=
  (dictKeys victories).insertionSort (fun a b => a.value ≤ b.value)

/-- `RuleSet.defeats(a1, a2)`:
`a2 in self.victories.get(a1, [])` — list membership by Python `==`. -/
def defeats (victories : Victories) (a1 a2 : PyAction) : Bool :=
  (dictGet victories a1).any (fun x => pyEq x a2)

/-- The distinct keys of a `collections.Counter` built from `h`, in first
insertion (= first occurrence) order: each element of `h` is represented by
the first element of `h` that is Python-equal to it. -/
def dedupFirst : List PyAction → List PyAction
  | [] => []
  | a :: t => a :: (dedupFirst t).filter (fun x => !pyEq x a)

/-- The count a `Counter` built from `h` assigns to `a`: the number of
elements of `h` that are Python-equal to `a`. -/
def countPy (h : List PyAction) (a : PyAction) : Nat :=
  h.countP (fun x => pyEq x a)

/-- The index, in `h`, of the first element Python-equal to `a`
(the insertion position of `a`'s key in the `Counter`). -/
def idxPy (h : List PyAction) (a : PyAction) : Nat :=
  h.findIdx (fun x => pyEq x a)

/-- `max(keys, key=count)` over a key list `l` for history `h`: the first
element of `l` attaining the maximal count (CPython `Counter.most_common(1)`
reduces to `max` over the items in insertion order, which keeps the earlier
element on ties). -/
def bestOf (h : List PyAction) : List PyAction → Option PyAction
  | [] => none
  | a :: t =>
    match bestOf h t with
    | none => some a
    | some b => if countPy h b > countPy h a then some b else some a

/-- `Counter(h).most_common(1)[0][0]`: the first-inserted key of maximal
count, or `none` when `h` is empty. -/
def mostCommon (h : List PyAction) : Option PyAction :=
  bestOf h (dedupFirst h)

/-- `RandomStrategy.select_action`: `random.choice(valid_actions)`, with the
random source modelled by the oracle `pick`. -/
def randomSelect (pick : List PyAction → PyAction)
    (valid_actions : List PyAction) : PyAction :=
  pick valid_actions

/-- `PredictiveStrategy.select_action`.  If the human-move history is empty,
`random.choice(valid_actions)`.  Otherwise the first action of
`valid_actions` whose defeat list in `victories_extended` contains the most
common human move; if there is none, `random.choice(valid_actions)`. -/
def predictiveSelect (pick : List PyAction → PyAction)
    (human_moves valid_actions : List PyAction) : PyAction :=
  match mostCommon human_moves with
  | none => pick valid_actions
  | some mc =>
    match valid_actions.find? (fun a => (dictGet victories_extended a).any (fun x => pyEq x mc)) with
    | some a => a
    | none => pick valid_actions

/-- The two computer strategies of `game.py`. -/
inductive Strategy where
  | randomS : Strategy
  | predictive : Strategy
deriving DecidableEq, Repr

/-- `HumanHistoryContext`: the mutable context of `PredictiveStrategy`. -/
structure HumanHistoryContext where
  human_moves : List PyAction
  computer_moves : List PyAction
  round_number : Nat
deriving DecidableEq, Repr

/-- The fresh context `HumanHistoryContext()`. -/
def HumanHistoryContext.init : HumanHistoryContext := ⟨[], [], 0⟩

/-- `Strategy.update_context`: a no-op for `RandomStrategy` (inherited from
`AbstractStrategy`); for `PredictiveStrategy` it appends the human and
computer actions to the history and increments the round number. -/
def updateContext (s : Strategy) (ctx : HumanHistoryContext)
    (human_action computer_action : PyAction) : HumanHistoryContext :=
  match s with
  | .randomS => ctx
  | .predictive =>
    { human_moves := ctx.human_moves ++ [human_action],
      computer_moves := ctx.computer_moves ++ [computer_action],
      round_number := ctx.round_number + 1 }

/-- `strategy.select_action(valid_actions)` for either strategy, reading the
context (only `PredictiveStrategy` uses it). -/
def selectAction (s : Strategy) (pick : List PyAction → PyAction)
    (ctx : HumanHistoryContext) (valid_actions : List PyAction) : PyAction :=
  match s with
  | .randomS => randomSelect pick valid_actions
  | .predictive => predictiveSelect pick ctx.human_moves valid_actions

/-- The `Game` state: rule set, mode, target, the computer player's strategy
and context, the round counter and the two score entries.  The scores dict
`{human.name: 0, computer.name: 0}` is modelled by its two entries (the
default player names "You" and "Computer" are distinct). -/
structure Game where
  victories : Victories
  mode : String
  target : Int
  strat : Strategy
  ctx : HumanHistoryContext
  rounds_played : Nat
  humanScore : Nat
  computerScore : Nat

/-- `Game.play_round`, given the human's chosen action and the random
oracle: computes the computer action from the strategy, resolves the round
(tie / human point / computer point), notifies `computer.update`
unconditionally, and increments `rounds_played`. -/
def playRound (g : Game) (human_action : PyAction)
    (pick : List PyAction → PyAction) : Game :=
  let valid_actions := get_valid_actions g.victories
  let computer_action := selectAction g.strat pick g.ctx valid_actions
  let g1 :=
    if pyEq human_action computer_action then g
    else if defeats g.victories human_action computer_action then
      { g with humanScore := g.humanScore + 1 }
    else
      { g with computerScore := g.computerScore + 1 }
  { g1 with
    ctx := updateContext g1.strat g1.ctx human_action computer_action,
    rounds_played := g1.rounds_played + 1 }

/-- `Game.is_game_over`. -/
def isGameOver (g : Game) : Bool :=
  if g.mode = "first_to" then
    decide (g.target ≤ (g.humanScore : Int)) || decide (g.target ≤ (g.computerScore : Int))
  else if g.mode = "fixed" then
    decide (g.target ≤ (g.rounds_played : Int))
  else
    false

/-- A sequence of `play_round` calls, each given its human action and its
random oracle. -/
def playRounds (g : Game) : List (PyAction × (List PyAction → PyAction)) → Game
  | [] => g
  | (h, p) :: rest => playRounds (playRound g h p) rest

/-- A sample deterministic random oracle: the head of the list (an arbitrary
but fixed resolution of `random.choice`). -/
def pickHead (l : List PyAction) : PyAction := l.headD Action.Rock

/-- A sample game: classic rules, random strategy, fixed mode with
target 3, fresh state. -/
def sampleGame : Game :=
  { victories := victories_classic, mode := "fixed", target := 3,
    strat := .randomS, ctx := .init, rounds_played := 0,
    humanScore := 0, computerScore := 0 }

/-! ## Basic lemmas about the embedding -/

theorem pyEq_iff {a b : PyAction} : pyEq a b = true ↔ a.value = b.value := by
  simp [pyEq]

theorem pyEq_refl (a : PyAction) : pyEq a a = true := by simp [pyEq]

theorem pyEq_symm {a b : PyAction} (h : pyEq a b = true) : pyEq b a = true := by
  rw [pyEq_iff] at h ⊢; omega

theorem pyEq_trans {a b c : PyAction} (h1 : pyEq a b = true)
    (h2 : pyEq b c = true) : pyEq a c = true := by
  rw [pyEq_iff] at h1 h2 ⊢; omega

theorem countPy_congr {a b : PyAction} (hab : pyEq a b = true)
    (h : List PyAction) : countPy h a = countPy h b := by
  have : (fun x => pyEq x a) = fun x => pyEq x b := by
    funext x
    rw [pyEq_iff] at hab
    simp [pyEq, hab]
  simp [countPy, this]

theorem idxPy_congr {a b : PyAction} (hab : pyEq a b = true)
    (h : List PyAction) : idxPy h a = idxPy h b := by
  have : (fun x => pyEq x a) = fun x => pyEq x b := by
    funext x
    rw [pyEq_iff] at hab
    simp [pyEq, hab]
  simp [idxPy, this]

/-! ## Lemmas about `playRound` -/

theorem playRound_fields (g : Game) (h : PyAction)
    (pick : List PyAction → PyAction) :
    (playRound g h pick).mode = g.mode ∧
    (playRound g h pick).target = g.target ∧
    (playRound g h pick).victories = g.victories ∧
    (playRound g h pick).strat = g.strat ∧
    (playRound g h pick).rounds_played = g.rounds_played + 1 ∧
    (playRound g h pick).ctx = updateContext g.strat g.ctx h
      (selectAction g.strat pick g.ctx (get_valid_actions g.victories)) := by
  simp only [playRound]
  split
  · simp_all
  · split <;> simp_all

theorem playRound_scores (g : Game) (h : PyAction)
    (pick : List PyAction → PyAction) :
    (let c := selectAction g.strat pick g.ctx (get_valid_actions g.victories)
     if pyEq h c then
       (playRound g h pick).humanScore = g.humanScore ∧
       (playRound g h pick).computerScore = g.computerScore
     else if defeats g.victories h c then
       (playRound g h pick).humanScore = g.humanScore + 1 ∧
       (playRound g h pick).computerScore = g.computerScore
     else
       (playRound g h pick).humanScore = g.humanScore ∧
       (playRound g h pick).computerScore = g.computerScore + 1) := by
  simp only [playRound]
  split
  · simp_all
  · split <;> simp_all

theorem playRound_sum_step (g : Game) (h : PyAction)
    (pick : List PyAction → PyAction) :
    ((playRound g h pick).humanScore + (playRound g h pick).computerScore =
        g.humanScore + g.computerScore ∨
     (playRound g h pick).humanScore + (playRound g h pick).computerScore =
        g.humanScore + g.computerScore + 1) ∧
    g.humanScore ≤ (playRound g h pick).humanScore ∧
    g.computerScore ≤ (playRound g h pick).computerScore := by
  have hs := playRound_scores g h pick
  simp only at hs
  split at hs
  · obtain ⟨e1, e2⟩ := hs
    exact ⟨Or.inl (by omega), by omega, by omega⟩
  · split at hs <;> obtain ⟨e1, e2⟩ := hs <;>
      exact ⟨Or.inr (by omega), by omega, by omega⟩

theorem playRounds_invariant : ∀ (inputs : List (PyAction × (List PyAction → PyAction)))
    (g : Game), g.humanScore + g.computerScore ≤ g.rounds_played →
    (playRounds g inputs).humanScore + (playRounds g inputs).computerScore ≤
      (playRounds g inputs).rounds_played
  | [], _, hg => hg
  | (h, p) :: rest, g, hg =>
    playRounds_invariant rest (playRound g h p) (by
      have h1 := (playRound_fields g h p).2.2.2.2.1
      have h2 := (playRound_sum_step g h p).1
      rcases h2 with h2 | h2 <;> omega)

/-! ## Claims C3, C4, C10 -/

/-- Claim C3: a round with human action `h` and computer action `c` leaves
the scores unchanged on a tie (`h` Python-equal to `c`), otherwise adds 1
to the human score exactly when `defeats(h, c)` holds and 1 to the
computer score otherwise; in every case — tie included — the computer's
`update` is applied to `(h, c)` and `rounds_played` grows by exactly 1. -/
theorem c3_play_round (g : Game) (h c : PyAction)
    (pick : List PyAction → PyAction)
    (hc : c = selectAction g.strat pick g.ctx (get_valid_actions g.victories)) :
    (pyEq h c = true →
      (playRound g h pick).humanScore = g.humanScore ∧
      (playRound g h pick).computerScore = g.computerScore) ∧
    (pyEq h c = false → defeats g.victories h c = true →
      (playRound g h pick).humanScore = g.humanScore + 1 ∧
      (playRound g h pick).computerScore = g.computerScore) ∧
    (pyEq h c = false → defeats g.victories h c = false →
      (playRound g h pick).humanScore = g.humanScore ∧
      (playRound g h pick).computerScore = g.computerScore + 1) ∧
    (playRound g h pick).ctx = updateContext g.strat g.ctx h c ∧
    (playRound g h pick).rounds_played = g.rounds_played + 1 := by
  subst hc
  have hf := playRound_fields g h pick
  have hs := playRound_scores g h pick
  simp only at hs
  refine ⟨?_, ?_, ?_, hf.2.2.2.2.2, hf.2.2.2.2.1⟩
  · intro heq
    simp only [heq] at hs
    simpa using hs
  · intro heq hdef
    simp only [heq, hdef] at hs
    simpa using hs
  · intro heq hdef
    simp only [heq, hdef] at hs
    simpa using hs

/-- Witness for C3: one classic round where both players pick Rock — a tie
that leaves the scores unchanged, updates the context and advances the
round counter. -/
theorem c3_witness :
    (playRound sampleGame Action.Rock pickHead).humanScore = sampleGame.humanScore ∧
    (playRound sampleGame Action.Rock pickHead).rounds_played = sampleGame.rounds_played + 1 := by
  have h := c3_play_round sampleGame Action.Rock
    (selectAction sampleGame.strat pickHead sampleGame.ctx
      (get_valid_actions sampleGame.victories)) pickHead rfl
  exact ⟨(h.1 (by decide)).1, h.2.2.2.2⟩

/-- Claim C4: `is_game_over` is true in `first_to` mode iff a score has
reached the target (whatever `rounds_played` is), and in `fixed` mode iff
`rounds_played` has reached the target; with `fixed` mode and target 3 it
is false after 2 rounds and true after exactly 3. -/
theorem c4_is_game_over (g : Game) :
    (g.mode = "first_to" →
      (isGameOver g = true ↔
        g.target ≤ (g.humanScore : Int) ∨ g.target ≤ (g.computerScore : Int))) ∧
    (g.mode = "fixed" →
      (isGameOver g = true ↔ g.target ≤ (g.rounds_played : Int))) ∧
    (g.mode = "fixed" → g.target = 3 → g.rounds_played = 0 →
      ∀ h1 p1 h2 p2 h3 p3,
        isGameOver (playRound (playRound g h1 p1) h2 p2) = false ∧
        isGameOver (playRound (playRound (playRound g h1 p1) h2 p2) h3 p3) = true) := by
  refine ⟨?_, ?_, ?_⟩
  · intro hm
    simp [isGameOver, hm]
  · intro hm
    simp [isGameOver, hm]
  · intro hm ht hr h1 p1 h2 p2 h3 p3
    have f1 := playRound_fields g h1 p1
    have f2 := playRound_fields (playRound g h1 p1) h2 p2
    have f3 := playRound_fields (playRound (playRound g h1 p1) h2 p2) h3 p3
    constructor
    · simp only [isGameOver, f2.1, f1.1, hm, f2.2.1, f1.2.1, ht,
        f2.2.2.2.2.1, f1.2.2.2.2.1, hr]
      norm_num
      exact fun hcontra => absurd hcontra (by simp)
    · simp only [isGameOver, f3.1, f2.1, f1.1, hm, f3.2.1, f2.2.1, f1.2.1, ht,
        f3.2.2.2.2.1, f2.2.2.2.2.1, f1.2.2.2.2.1, hr]
      norm_num
      exact Or.inl (by simp)

/-- Witness for C4: the sample fixed-mode game with target 3, played with
Rock against the head-picking oracle. -/
theorem c4_witness :
    isGameOver (playRound (playRound sampleGame Action.Rock pickHead)
      Action.Rock pickHead) = false ∧
    isGameOver (playRound (playRound (playRound sampleGame Action.Rock pickHead)
      Action.Rock pickHead) Action.Rock pickHead) = true :=
  (c4_is_game_over sampleGame).2.2 rfl rfl rfl Action.Rock pickHead
    Action.Rock pickHead Action.Rock pickHead

/-- Claim C10: from the initial state (round counter and both scores zero),
after any sequence of rounds both scores are non-negative and their sum is
at most the number of rounds played; each single round adds exactly 1 to
the round counter, adds 0 or exactly 1 to the score sum, and never
decreases either score. -/
theorem c10_score_invariant (g0 : Game) (hr : g0.rounds_played = 0)
    (hh : g0.humanScore = 0) (hc : g0.computerScore = 0)
    (inputs : List (PyAction × (List PyAction → PyAction))) :
    (0 ≤ (playRounds g0 inputs).humanScore ∧
     0 ≤ (playRounds g0 inputs).computerScore) ∧
    (playRounds g0 inputs).humanScore + (playRounds g0 inputs).computerScore ≤
      (playRounds g0 inputs).rounds_played ∧
    (∀ (g : Game) (h : PyAction) (p : List PyAction → PyAction),
      (playRound g h p).rounds_played = g.rounds_played + 1 ∧
      ((playRound g h p).humanScore + (playRound g h p).computerScore =
          g.humanScore + g.computerScore ∨
       (playRound g h p).humanScore + (playRound g h p).computerScore =
          g.humanScore + g.computerScore + 1) ∧
      g.humanScore ≤ (playRound g h p).humanScore ∧
      g.computerScore ≤ (playRound g h p).computerScore) := by
  refine ⟨⟨Nat.zero_le _, Nat.zero_le _⟩, ?_, ?_⟩
  · exact playRounds_invariant inputs g0 (by omega)
  · intro g h p
    exact ⟨(playRound_fields g h p).2.2.2.2.1, (playRound_sum_step g h p).1,
      (playRound_sum_step g h p).2.1, (playRound_sum_step g h p).2.2⟩

/-- Witness for C10: the sample game after one Rock round. -/
theorem c10_witness :
    (playRounds sampleGame [(Action.Rock, pickHead)]).humanScore +
      (playRounds sampleGame [(Action.Rock, pickHead)]).computerScore ≤
      (playRounds sampleGame [(Action.Rock, pickHead)]).rounds_played :=
  (c10_score_invariant sampleGame rfl rfl rfl [(Action.Rock, pickHead)]).2.1

/-! ## Claims C5, C7, C8, C9 -/

/-- Claim C5: in each of the three shipped victory tables, no action
defeats itself, and no two distinct actions defeat each other. -/
theorem c5_tables_irreflexive_antisymmetric :
    ∀ v ∈ [victories_classic, victories_extended, victories_fire_water],
      (∀ a ∈ dictKeys v, defeats v a a = false) ∧
      (∀ a ∈ dictKeys v, ∀ b ∈ dictKeys v, a ≠ b →
        ¬(defeats v a b = true ∧ defeats v b a = true)) := by decide

/-- Witness for C5: the classic table at Rock and Paper. -/
theorem c5_witness :
    defeats victories_classic Action.Rock Action.Rock = false ∧
    ¬(defeats victories_classic Action.Rock Action.Paper = true ∧
      defeats victories_classic Action.Paper Action.Rock = true) :=
  ⟨(c5_tables_irreflexive_antisymmetric victories_classic (by decide)).1
      Action.Rock (by decide),
   (c5_tables_irreflexive_antisymmetric victories_classic (by decide)).2
      Action.Rock (by decide) Action.Paper (by decide) (by decide)⟩

/-- Claim C7: `defeats(a, b)` is true iff `b` is Python-equal to a member
of the defeat list the table assigns to `a`, and when `a` matches no key of
the table the lookup falls back to `[]` and `defeats` returns `false`
(no exception: `dict.get` with a default and list membership are total). -/
theorem c7_defeats_spec (v : Victories) (a b : PyAction) :
    (defeats v a b = true ↔ ∃ x ∈ dictGet v a, pyEq x b = true) ∧
    ((∀ k ∈ dictKeys v, pyEq k a = false) →
      dictGet v a = [] ∧ defeats v a b = false) := by
  constructor
  · simp [defeats, List.any_eq_true]
  · intro hk
    have hnone : v.find? (fun kv => pyEq kv.1 a) = none := by
      rw [List.find?_eq_none]
      intro kv hkv
      simp [hk kv.1 (List.mem_map_of_mem Prod.fst hkv)]
    simp [defeats, dictGet, hnone]

/-- Witness for C7: `Spock` is not a key of the classic table, and
`defeats` returns `false` on it. -/
theorem c7_witness :
    dictGet victories_classic Action.Spock = [] ∧
    defeats victories_classic Action.Spock Action.Rock = false :=
  (c7_defeats_spec victories_classic Action.Spock Action.Rock).2 (by decide)

/-- Claim C8 counterexample: a `FireWaterAction` used against the classic
rule set (built over `Action`) does not fail: it silently yields an
ordinary boolean — here even `true`, because comparison is by ordinal
value only. -/
theorem c8_counterexample :
    FireWaterAction.Rock.variant ≠ "Action" ∧
    (dictKeys victories_classic).all (fun k => k.variant == "Action") = true ∧
    defeats victories_classic FireWaterAction.Rock FireWaterAction.Scissors = true := by
  decide

/-- Claim C8 (amended): cross-variant actions are silently accepted —
`defeats` depends only on the underlying ordinal values of its action
arguments, so an action of a foreign variant behaves exactly like the
same-ordinal action of the rule set's own variant, and a boolean is
returned with no error. -/
theorem c8_cross_variant_silent (v : Victories) (a b a' b' : PyAction)
    (ha : a.value = a'.value) (hb : b.value = b'.value) :
    defeats v a b = defeats v a' b' := by
  have h1 : (fun kv : PyAction × List PyAction => pyEq kv.1 a) =
      fun kv => pyEq kv.1 a' := by
    funext kv; simp [pyEq, ha]
  have h2 : (fun x : PyAction => pyEq x b) = fun x => pyEq x b' := by
    funext x; simp [pyEq, hb]
  simp [defeats, dictGet, h1, h2]

/-- Witness for C8 (amended): a fire-water Rock/Scissors pair against the
classic table behaves like the classic Rock/Scissors pair. -/
theorem c8_witness :
    defeats victories_classic FireWaterAction.Rock FireWaterAction.Scissors =
      defeats victories_classic Action.Rock Action.Scissors :=
  c8_cross_variant_silent victories_classic _ _ _ _ rfl rfl

/-- Claim C9 counterexample: `RuleSet({})` performs no validation — it
succeeds and yields a usable object (empty valid-action list, `defeats`
returning `false`), contradicting "fails fatally at construction time". -/
theorem c9_counterexample :
    mkRuleSet [] = { victories := [] } ∧
    get_valid_actions (mkRuleSet []).victories = [] ∧
    defeats (mkRuleSet []).victories Action.Rock Action.Rock = false :=
  ⟨rfl, rfl, rfl⟩

/-- Claim C9 (amended): constructing a `RuleSet` from an empty victories
mapping succeeds (the constructor only stores the mapping); the resulting
rule set has an empty valid-action list and `defeats` uniformly `false`. -/
theorem c9_empty_construction_succeeds :
    (mkRuleSet []).victories = [] ∧
    get_valid_actions [] = [] ∧
    ∀ a b : PyAction, defeats [] a b = false :=
  ⟨rfl, rfl, fun _ _ => rfl⟩

/-! ## Lemmas about `Counter.most_common`

`Counter(h).most_common(1)[0][0]` is modelled by `mostCommon`: the `Counter`
keys are the first occurrences of `h` in order (`dedupFirst`), and CPython's
`most_common(1)` reduces to `max` over the items in that order with the
count as key, which returns the first key attaining the maximal count
(`bestOf`).  The lemmas characterise the result: an element of `h` of
maximal count whose first-occurrence index is least among the maximal
ones. -/

theorem pyEq_comm (a b : PyAction) : pyEq a b = pyEq b a := by
  by_cases hv : a.value = b.value
  · simp [pyEq, hv]
  · simp [pyEq, hv, Ne.symm hv]

theorem bestOf_eq_none (h l : List PyAction) : bestOf h l = none ↔ l = [] := by
  constructor
  · intro he
    cases l with
    | nil => rfl
    | cons a t =>
      cases hb : bestOf h t with
      | none => simp [bestOf, hb] at he
      | some b =>
        simp only [bestOf, hb] at he
        split at he <;> simp at he
  · intro he
    subst he
    rfl

theorem mem_of_mem_dedupFirst {y : PyAction} :
    ∀ {h : List PyAction}, y ∈ dedupFirst h → y ∈ h := by
  intro h
  induction h with
  | nil => simp [dedupFirst]
  | cons a t ih =>
    intro hy
    rw [dedupFirst] at hy
    rcases List.mem_cons.1 hy with rfl | hy
    · exact List.mem_cons_self _ _
    · exact List.mem_cons_of_mem _ (ih (List.mem_of_mem_filter hy))

theorem dedupFirst_complete {x : PyAction} : ∀ {h : List PyAction}, x ∈ h →
    ∃ y ∈ dedupFirst h, pyEq y x = true := by
  intro h
  induction h with
  | nil => simp
  | cons a t ih =>
    intro hx
    rcases List.mem_cons.1 hx with rfl | hx
    · exact ⟨x, by rw [dedupFirst]; exact List.mem_cons_self _ _, pyEq_refl x⟩
    · obtain ⟨y, hy, hyx⟩ := ih hx
      by_cases hya : pyEq y a = true
      · exact ⟨a, by rw [dedupFirst]; exact List.mem_cons_self _ _,
          pyEq_trans (pyEq_symm hya) hyx⟩
      · refine ⟨y, ?_, hyx⟩
        rw [dedupFirst]
        exact List.mem_cons_of_mem _ (List.mem_filter.2 ⟨hy, by simp [hya]⟩)

theorem idxPy_cons (a x : PyAction) (t : List PyAction) :
    idxPy (a :: t) x = bif pyEq a x then 0 else idxPy t x + 1 :=
  List.findIdx_cons _ a t

theorem dedupFirst_pairwise_idx (h : List PyAction) :
    (dedupFirst h).Pairwise (fun a b => idxPy h a ≤ idxPy h b) := by
  induction h with
  | nil => simp [dedupFirst]
  | cons a t ih =>
    rw [dedupFirst]
    refine List.pairwise_cons.2 ⟨?_, ?_⟩
    · intro y _
      rw [idxPy_cons, pyEq_refl]
      exact Nat.zero_le _
    · have hsub : ((dedupFirst t).filter (fun x => !pyEq x a)).Pairwise
          (fun x y => idxPy t x ≤ idxPy t y) :=
        ih.sublist (List.filter_sublist _)
      refine hsub.imp_of_mem ?_
      intro x y hx hy hxy
      have hxa : pyEq x a = false := by
        have := (List.mem_filter.1 hx).2
        simpa using this
      have hya : pyEq y a = false := by
        have := (List.mem_filter.1 hy).2
        simpa using this
      rw [idxPy_cons, idxPy_cons, pyEq_comm a x, pyEq_comm a y, hxa, hya]
      simpa using hxy

theorem bestOf_spec (h : List PyAction) (R : PyAction → PyAction → Prop) :
    ∀ (l : List PyAction), l.Pairwise R → ∀ m, bestOf h l = some m →
      m ∈ l ∧ (∀ x ∈ l, countPy h x ≤ countPy h m) ∧
      (∀ x ∈ l, countPy h x = countPy h m → m = x ∨ R m x) := by
  intro l
  induction l with
  | nil => intro _ m hb; simp [bestOf] at hb
  | cons a t ih =>
    intro hp m hb
    cases hbt : bestOf h t with
    | none =>
      have ht : t = [] := (bestOf_eq_none h t).1 hbt
      subst ht
      simp only [bestOf] at hb
      cases hb
      refine ⟨List.mem_cons_self _ _, ?_, ?_⟩
      · intro x hx
        rcases List.mem_cons.1 hx with rfl | hx
        · exact Nat.le_refl _
        · simp at hx
      · intro x hx _
        rcases List.mem_cons.1 hx with rfl | hx
        · exact Or.inl rfl
        · simp at hx
    | some b =>
      have IH := ih (List.Pairwise.of_cons hp) b hbt
      simp only [bestOf, hbt] at hb
      by_cases hcmp : countPy h b > countPy h a
      · rw [if_pos hcmp] at hb
        cases hb
        refine ⟨List.mem_cons_of_mem _ IH.1, ?_, ?_⟩
        · intro x hx
          rcases List.mem_cons.1 hx with rfl | hx
          · exact Nat.le_of_lt hcmp
          · exact IH.2.1 x hx
        · intro x hx heq
          rcases List.mem_cons.1 hx with rfl | hx
          · omega
          · exact IH.2.2 x hx heq
      · rw [if_neg hcmp] at hb
        cases hb
        refine ⟨List.mem_cons_self _ _, ?_, ?_⟩
        · intro x hx
          rcases List.mem_cons.1 hx with rfl | hx
          · exact Nat.le_refl _
          · have := IH.2.1 x hx
            omega
        · intro x hx _
          rcases List.mem_cons.1 hx with rfl | hx
          · exact Or.inl rfl
          · exact Or.inr (List.rel_of_pairwise_cons hp hx)

theorem dedupFirst_ne_nil {h : List PyAction} (hne : h ≠ []) :
    dedupFirst h ≠ [] := by
  cases h with
  | nil => exact absurd rfl hne
  | cons a t => simp [dedupFirst]

theorem mostCommon_spec (h : List PyAction) (hne : h ≠ []) :
    ∃ m, mostCommon h = some m ∧ m ∈ h ∧
      (∀ x ∈ h, countPy h x ≤ countPy h m) ∧
      (∀ x ∈ h, countPy h x = countPy h m → idxPy h m ≤ idxPy h x) := by
  cases hb : bestOf h (dedupFirst h) with
  | none => exact absurd ((bestOf_eq_none _ _).1 hb) (dedupFirst_ne_nil hne)
  | some m =>
    have hs := bestOf_spec h (fun a b => idxPy h a ≤ idxPy h b) (dedupFirst h)
      (dedupFirst_pairwise_idx h) m hb
    refine ⟨m, hb, mem_of_mem_dedupFirst hs.1, ?_, ?_⟩
    · intro x hx
      obtain ⟨y, hy, hyx⟩ := dedupFirst_complete hx
      have h1 : countPy h x = countPy h y := countPy_congr (pyEq_symm hyx) h
      rw [h1]
      exact hs.2.1 y hy
    · intro x hx heq
      obtain ⟨y, hy, hyx⟩ := dedupFirst_complete hx
      have h1 : countPy h y = countPy h x := countPy_congr hyx h
      have h2 : idxPy h y = idxPy h x := idxPy_congr hyx h
      have h3 : countPy h y = countPy h m := by omega
      rcases hs.2.2 y hy h3 with rfl | hle
      · omega
      · omega

/-! ## Claims C1, C2, C6 -/

/-- Claim C1 counterexample: with human history `[Rock, Rock, Paper]` and
the extended valid-action list (which contains Scissors and Lizard), the
predictive strategy returns `Paper` — an action whose extended defeat-set
contains Rock — not `Scissors` or `Lizard` as the claim names (those are
the actions Rock defeats, not the ones that defeat Rock). -/
theorem c1_counterexample :
    Action.Scissors ∈ get_valid_actions victories_extended ∧
    Action.Lizard ∈ get_valid_actions victories_extended ∧
    mostCommon [Action.Rock, Action.Rock, Action.Paper] = some Action.Rock ∧
    predictiveSelect pickHead [Action.Rock, Action.Rock, Action.Paper]
      (get_valid_actions victories_extended) = Action.Paper ∧
    Action.Paper ≠ Action.Scissors ∧ Action.Paper ≠ Action.Lizard := by decide

/-- Claim C1 (amended): with human history `[Rock, Rock, Paper]` the most
frequent human action is Rock, and whenever `valid_actions` (drawn from the
`Action` enum) contains Paper or Spock, `select_action` returns a member of
`valid_actions` whose extended-table defeat-set contains Rock — namely
Paper or Spock, the only actions that defeat Rock in the extended table. -/
theorem c1_predictive_counters_rock (pick : List PyAction → PyAction)
    (va : List PyAction) (hsub : ∀ x ∈ va, x ∈ Action.members)
    (hps : Action.Paper ∈ va ∨ Action.Spock ∈ va) :
    mostCommon [Action.Rock, Action.Rock, Action.Paper] = some Action.Rock ∧
    predictiveSelect pick [Action.Rock, Action.Rock, Action.Paper] va ∈ va ∧
    (dictGet victories_extended
        (predictiveSelect pick [Action.Rock, Action.Rock, Action.Paper] va)).any
      (fun x => pyEq x Action.Rock) = true ∧
    (predictiveSelect pick [Action.Rock, Action.Rock, Action.Paper] va = Action.Paper ∨
     predictiveSelect pick [Action.Rock, Action.Rock, Action.Paper] va = Action.Spock) := by
  have hm : mostCommon [Action.Rock, Action.Rock, Action.Paper] = some Action.Rock := by
    decide
  refine ⟨hm, ?_⟩
  simp only [predictiveSelect, hm]
  cases hfind : va.find?
      (fun a => (dictGet victories_extended a).any (fun x => pyEq x Action.Rock)) with
  | none =>
    exfalso
    rcases hps with hp | hp
    · exact List.find?_eq_none.1 hfind Action.Paper hp (by decide)
    · exact List.find?_eq_none.1 hfind Action.Spock hp (by decide)
  | some r =>
    have hr_mem : r ∈ va := List.mem_of_find?_eq_some hfind
    have hr_pred := List.find?_some hfind
    refine ⟨hr_mem, by simpa using hr_pred, ?_⟩
    have hr5 : r ∈ Action.members := hsub r hr_mem
    have hr5' : r = Action.Rock ∨ r = Action.Paper ∨ r = Action.Scissors ∨
        r = Action.Lizard ∨ r = Action.Spock := by
      simpa [Action.members] using hr5
    rcases hr5' with rfl | rfl | rfl | rfl | rfl
    · exact absurd hr_pred (by decide)
    · exact Or.inl rfl
    · exact absurd hr_pred (by decide)
    · exact absurd hr_pred (by decide)
    · exact Or.inr rfl

/-- Witness for C1 (amended): the extended rule set's own valid-action
list. -/
theorem c1_witness :
    mostCommon [Action.Rock, Action.Rock, Action.Paper] = some Action.Rock ∧
    predictiveSelect pickHead [Action.Rock, Action.Rock, Action.Paper]
      (get_valid_actions victories_extended) ∈ get_valid_actions victories_extended ∧
    (dictGet victories_extended
        (predictiveSelect pickHead [Action.Rock, Action.Rock, Action.Paper]
          (get_valid_actions victories_extended))).any
      (fun x => pyEq x Action.Rock) = true ∧
    (predictiveSelect pickHead [Action.Rock, Action.Rock, Action.Paper]
        (get_valid_actions victories_extended) = Action.Paper ∨
     predictiveSelect pickHead [Action.Rock, Action.Rock, Action.Paper]
        (get_valid_actions victories_extended) = Action.Spock) :=
  c1_predictive_counters_rock pickHead _ (by decide) (Or.inl (by decide))

/-- Claim C2: with empty history the predictive strategy makes the same
call as the random strategy; with non-empty history it determines the most
frequent human action (maximal Python-equality count, ties broken in
favour of the action whose first occurrence comes earliest), returns a
member of `valid_actions` whose defeat-set in the fixed extended table
contains it whenever one exists, and otherwise falls back to the random
choice. -/
theorem c2_predictive_strategy (pick : List PyAction → PyAction)
    (h va : List PyAction) :
    (h = [] → predictiveSelect pick h va = randomSelect pick va) ∧
    (h ≠ [] → ∃ m, mostCommon h = some m ∧ m ∈ h ∧
      (∀ x ∈ h, countPy h x ≤ countPy h m) ∧
      (∀ x ∈ h, countPy h x = countPy h m → idxPy h m ≤ idxPy h x) ∧
      ((∃ a ∈ va, (dictGet victories_extended a).any (fun x => pyEq x m) = true) →
        predictiveSelect pick h va ∈ va ∧
        (dictGet victories_extended (predictiveSelect pick h va)).any
          (fun x => pyEq x m) = true) ∧
      ((∀ a ∈ va, (dictGet victories_extended a).any (fun x => pyEq x m) = false) →
        predictiveSelect pick h va = randomSelect pick va)) := by
  constructor
  · intro he
    subst he
    rfl
  · intro hne
    obtain ⟨m, hm, hmem, hmax, htie⟩ := mostCommon_spec h hne
    refine ⟨m, hm, hmem, hmax, htie, ?_, ?_⟩
    · rintro ⟨a, ha, hpa⟩
      simp only [predictiveSelect, hm]
      cases hfind : va.find?
          (fun a => (dictGet victories_extended a).any (fun x => pyEq x m)) with
      | none =>
        have := List.find?_eq_none.1 hfind a ha
        simp [hpa] at this
      | some r =>
        refine ⟨List.mem_of_find?_eq_some hfind, ?_⟩
        simpa using List.find?_some hfind
    · intro hall
      simp only [predictiveSelect, hm]
      have hnone : va.find?
          (fun a => (dictGet victories_extended a).any (fun x => pyEq x m)) = none :=
        List.find?_eq_none.2 (fun a ha => by simp [hall a ha])
      rw [hnone]
      rfl

/-- Witness for C2: empty history makes the predictive strategy issue the
random strategy's call. -/
theorem c2_witness :
    predictiveSelect pickHead [] [Action.Paper] = randomSelect pickHead [Action.Paper] :=
  (c2_predictive_strategy pickHead [] [Action.Paper]).1 rfl

instance : IsTotal PyAction (fun a b => a.value ≤ b.value) :=
  ⟨fun a b => Nat.le_total a.value b.value⟩

instance : IsTrans PyAction (fun a b => a.value ≤ b.value) :=
  ⟨fun _ _ _ h1 h2 => Nat.le_trans h1 h2⟩

/-- Claim C6: `get_valid_actions` returns a permutation of the table's
keys, sorted by underlying ordinal value, and — keys of a Python dict
being unique — each domain action appears exactly once.  The order is
stable across calls because the operation is a pure function of the
stored table. -/
theorem c6_valid_actions_sorted_unique (v : Victories)
    (hnd : (dictKeys v).Pairwise (fun a b => pyEq a b = false)) :
    List.Perm (get_valid_actions v) (dictKeys v) ∧
    List.Sorted (fun a b => a.value ≤ b.value) (get_valid_actions v) ∧
    (∀ a ∈ dictKeys v, (get_valid_actions v).count a = 1) := by
  refine ⟨List.perm_insertionSort _ _, List.sorted_insertionSort _ _, ?_⟩
  intro a ha
  have hnodup : (dictKeys v).Nodup := by
    refine hnd.imp ?_
    intro x y hxy hEq
    rw [hEq, pyEq_refl] at hxy
    cases hxy
  exact ((List.perm_insertionSort (fun a b : PyAction => a.value ≤ b.value)
    (dictKeys v)).count_eq a).trans (List.count_eq_one_of_mem hnodup ha)

/-- Witness for C6: the classic table lists Rock exactly once. -/
theorem c6_witness :
    (get_valid_actions victories_classic).count Action.Rock = 1 :=
  (c6_valid_actions_sorted_unique victories_classic (by decide)).2.2 Action.Rock
    (by decide)
